import Mathlib

/-!
Verification of the agentzero-core cognitive orchestration core
(TaskManager.cpp / KnowledgeIntegrator.cpp) against its specification.

The C++ code is shallowly embedded: the AtomSpace is a list of atoms,
a Handle is an index into that list (an `Option Nat` wherever the code can
hold `Handle::UNDEFINED`), truth values are pairs of rationals, and the
`std::map` members are association lists.  All definitions follow the
source line by line; deviations forced by the embedding are noted where
they occur.
-/

namespace AgentZero

/-- Atom types used by the embedded code (subset of the AtomSpace type
hierarchy actually referenced by TaskManager.cpp / KnowledgeIntegrator.cpp). -/
inductive AType where
  | CONCEPT_NODE
  | PREDICATE_NODE
  | NUMBER_NODE
  | MEMBER_LINK
  | INHERITANCE_LINK
  | EVALUATION_LINK
  | SEQUENTIAL_AND_LINK
  | LIST_LINK
  deriving DecidableEq, Repr

/-- `TaskManager::TaskStatus` (TaskManager.h). -/
inductive TaskStatus where
  | PENDING
  | ACTIVE
  | COMPLETED
  | FAILED
  | CANCELLED
  | SUSPENDED
  deriving DecidableEq, Repr

/-- `TaskManager::Priority` (TaskManager.h): LOW = 1, MEDIUM = 5, HIGH = 10,
CRITICAL = 20. -/
inductive Priority where
  | LOW
  | MEDIUM
  | HIGH
  | CRITICAL
  deriving DecidableEq, Repr

/-- The integer value of a `Priority` (`static_cast<int>(priority)`). -/
def Priority.toInt : Priority → Nat
  | .LOW => 1
  | .MEDIUM => 5
  | .HIGH => 10
  | .CRITICAL => 20

/-- `KnowledgeIntegrator::KnowledgeType` (KnowledgeIntegrator.h). -/
inductive KnowledgeType where
  | FACTUAL
  | PROCEDURAL
  | EPISODIC
  | SEMANTIC
  | CONDITIONAL
  | TEMPORAL
  deriving DecidableEq, Repr

/-- `KnowledgeIntegrator::ConfidenceLevel` (KnowledgeIntegrator.h):
VERY_LOW = 0, LOW = 25, MEDIUM = 50, HIGH = 75, VERY_HIGH = 100. -/
inductive ConfidenceLevel where
  | VERY_LOW
  | LOW
  | MEDIUM
  | HIGH
  | VERY_HIGH
  deriving DecidableEq, Repr

/-- The integer value of a `ConfidenceLevel`. -/
def ConfidenceLevel.toInt : ConfidenceLevel → Nat
  | .VERY_LOW => 0
  | .LOW => 25
  | .MEDIUM => 50
  | .HIGH => 75
  | .VERY_HIGH => 100

/-- A (strength, confidence) pair, the embedding of `SimpleTruthValue`.
Machine doubles are modelled as rationals; every constant appearing in the
source (0.3, 0.5, 0.8, 0.9, ...) is exactly representable, so no rounding
is lost on the values the code actually computes with. -/
abbrev TV := Rat × Rat

/-- One atom of the embedded AtomSpace: nodes carry a name and an empty
outgoing set, links carry an empty name and their outgoing handles.
Handles are indices into the atom list. -/
structure Atom where
  atype : AType
  name : String
  out : List Nat
  tv : TV
  deriving DecidableEq, Repr

/-- `TruthValue::DEFAULT_TV()`: strength 1, confidence 0, given to atoms
whose truth value is never explicitly set. -/
def defaultTV : TV := (1, 0)

/-- Placeholder atom returned by out-of-range handle lookups (cannot occur
in the modelled control flow; C++ handles are always valid pointers). -/
def defaultAtom : Atom := ⟨AType.CONCEPT_NODE, "", [], defaultTV⟩

/-- The atom a handle points at. -/
def atomAt (as : List Atom) (h : Nat) : Atom := as.getD h defaultAtom

/-- `AtomSpace::add_node`: return the existing node with this type and
name if present, otherwise append a fresh one.  Returns the handle and
the updated space. -/
def addNode (as : List Atom) (t : AType) (nm : String) : Nat × List Atom :=
  match as.findIdx? (fun a => a.atype = t ∧ a.name = nm ∧ a.out = []) with
  | some i => (i, as)
  | none => (as.length, as ++ [⟨t, nm, [], defaultTV⟩])

/-- `AtomSpace::add_link`: return the existing link with this type and
outgoing set if present, otherwise append a fresh one. -/
def addLink (as : List Atom) (t : AType) (og : List Nat) : Nat × List Atom :=
  match as.findIdx? (fun a => a.atype = t ∧ a.out = og ∧ a.name = "") with
  | some i => (i, as)
  | none => (as.length, as ++ [⟨t, "", og, defaultTV⟩])

/-- `Atom::setTruthValue` on the atom a handle points at. -/
def setTV (as : List Atom) (h : Nat) (tv : TV) : List Atom :=
  as.modify (fun a => { a with tv := tv }) h

/-- `Atom::getTruthValue` on the atom a handle points at. -/
def getTV (as : List Atom) (h : Nat) : TV := (atomAt as h).tv

/-- `AtomSpace::get_incoming_by_type`: handles of all links of the given
type whose outgoing set contains `h`, in insertion order (the store leaves
the order unspecified; insertion order is this model's choice). -/
def getIncomingByType (as : List Atom) (h : Nat) (t : AType) : List Nat :=
  (List.range as.length).filter (fun i => (atomAt as i).atype = t ∧ h ∈ (atomAt as i).out)

/-- `AtomSpace::get_atoms_by_type`, in insertion order. -/
def getAtomsByType (as : List Atom) (t : AType) : List Nat :=
  (List.range as.length).filter (fun i => (atomAt as i).atype = t)

/-- `AtomSpace::get_atoms_by_name` restricted to a node type. -/
def getAtomsByName (as : List Atom) (t : AType) (nm : String) : List Nat :=
  (List.range as.length).filter
    (fun i => (atomAt as i).atype = t ∧ (atomAt as i).name = nm ∧ (atomAt as i).out = [])

/-- Whether `pat` is an initial segment of `s` (character lists). -/
def charsPrefixOf : List Char → List Char → Bool
  | [], _ => true
  | _ :: _, [] => false
  | c :: cs, d :: ds => c = d && charsPrefixOf cs ds

/-- Whether `pat` occurs contiguously inside `s` (character lists). -/
def occursIn (pat : List Char) : List Char → Bool
  | [] => pat.isEmpty
  | c :: rest => charsPrefixOf pat (c :: rest) || occursIn pat rest

/-- `std::string::find(pat) != npos`: substring containment. -/
def strContains (s pat : String) : Bool := occursIn pat.toList s.toList

/-- First-match lookup in an association list (the model of reading a
`std::map`, whose keys are unique). -/
def lookupA {κ α : Type} [DecidableEq κ] (l : List (κ × α)) (k : κ) : Option α :=
  (l.find? (fun p => p.1 = k)).map (fun p => p.2)

/-- Insert-or-assign on an association list (the model of `map[k] = v`). -/
def setA {κ α : Type} [DecidableEq κ] : List (κ × α) → κ → α → List (κ × α)
  | [], k, v => [(k, v)]
  | p :: rest, k, v => if p.1 = k then (k, v) :: rest else p :: setA rest k v

/-!
## TaskManager (TaskManager.cpp)

The `std::map` members iterate in sorted key order in C++; the model keeps
them as association lists and iterates in list order.  Every claim below is
either order-independent or quantifies over the enumeration order, so this
choice is observationally faithful.
-/

/-- The mutable state of a `TaskManager` object. -/
structure TMState where
  atoms : List Atom
  task_queue : List Nat
  task_status : List (Nat × TaskStatus)
  task_priorities : List (Nat × Priority)
  task_dependencies : List (Nat × List Nat)
  current_task : Option Nat
  current_goal : Option Nat
  goal_hierarchy_root : Nat
  task_context : Nat
  goal_context : Nat
  execution_context : Nat
  enable_goal_decomposition : Bool
  enable_priority_scheduling : Bool
  deriving DecidableEq, Repr

/-- `TaskManager::createTaskAtom`: node named `Task_<desc>`, truth value
(priority/20, 0.9). -/
def createTaskAtom (as : List Atom) (desc : String) (prio : Priority) : Nat × List Atom :=
  let (task, as1) := addNode as AType.CONCEPT_NODE ("Task_" ++ desc)
  (task, setTV as1 task ((Priority.toInt prio : Rat) / 20, 9/10))

/-- `TaskManager::createGoalAtom`: node named `Goal_<desc>`, truth value
(0, 0.9). -/
def createGoalAtom (as : List Atom) (desc : String) : Nat × List Atom :=
  let (g, as1) := addNode as AType.CONCEPT_NODE ("Goal_" ++ desc)
  (g, setTV as1 g (0, 9/10))

/-- `TaskManager::createTask`: create the task atom, link it to its goal if
one is given, enqueue it, and record status PENDING and its priority. -/
def createTask (st : TMState) (desc : String) (prio : Priority) (goal : Option Nat) :
    Nat × TMState :=
  let (task, as1) := createTaskAtom st.atoms desc prio
  let as2 :=
    match goal with
    | some g => (addLink as1 AType.EVALUATION_LINK [task, g]).2
    | none => as1
  (task,
    { st with
      atoms := as2
      task_queue := st.task_queue ++ [task]
      task_status := setA st.task_status task TaskStatus.PENDING
      task_priorities := setA st.task_priorities task prio })

/-- `TaskManager::addTaskDependency`: append to the dependency list
(`operator[]` creates an empty entry first) and add a SequentialAnd link;
always returns true. -/
def addTaskDependency (st : TMState) (task dep : Nat) : Bool × TMState :=
  let deps := (lookupA st.task_dependencies task).getD []
  let st1 := { st with task_dependencies := setA st.task_dependencies task (deps ++ [dep]) }
  let (_, as1) := addLink st1.atoms AType.SEQUENTIAL_AND_LINK [task, dep]
  (true, { st1 with atoms := as1 })

/-- `TaskManager::getTaskStatus`: map lookup, defaulting to PENDING. -/
def getTaskStatus (st : TMState) (task : Nat) : TaskStatus :=
  (lookupA st.task_status task).getD TaskStatus.PENDING

/-- `TaskManager::checkTaskDependencies`: true when the task has no
recorded dependencies or every dependency has status COMPLETED. -/
def checkTaskDependencies (st : TMState) (task : Nat) : Bool :=
  match lookupA st.task_dependencies task with
  | none => true
  | some deps => deps.all (fun d => getTaskStatus st d == TaskStatus.COMPLETED)

/-- `TaskManager::getReadyTasks`: tasks whose status is PENDING and whose
dependencies are all completed, in status-map enumeration order. -/
def getReadyTasks (st : TMState) : List Nat :=
  (st.task_status.filter
    (fun p => p.2 == TaskStatus.PENDING && checkTaskDependencies st p.1)).map (fun p => p.1)

/-- The priority value `getNextTask` compares:
`static_cast<int>(_task_priorities[task])`.  A task missing from the map
gets the value-initialized `Priority(0)`, modelled as the value 0 (the
`operator[]` insertion is observationally irrelevant to the result). -/
def prioNat (st : TMState) (task : Nat) : Nat :=
  match lookupA st.task_priorities task with
  | some p => p.toInt
  | none => 0

/-- The scan loop of `getNextTask` (lines 222-231): starting from the
first ready task, replace the best task whenever a strictly higher
priority is seen. -/
def pickBest (f : Nat → Nat) (b : Nat) (l : List Nat) : Nat :=
  l.foldl (fun best t => if f t > f best then t else best) b

/-- `TaskManager::getNextTask`: undefined on an empty ready set; the first
ready task when priority scheduling is disabled; otherwise a linear scan
keeping the first task of strictly highest priority. -/
def getNextTask (st : TMState) : Option Nat :=
  match getReadyTasks st with
  | [] => none
  | b :: rest =>
    if !st.enable_priority_scheduling then some b
    else some (pickBest (prioNat st) b (b :: rest))

/-- `TaskManager::updateTaskStatus`: record the new status and set the task
atom's truth value from the status table. -/
def updateTaskStatus (st : TMState) (task : Nat) (s : TaskStatus) : TMState :=
  let strength : Rat :=
    match s with
    | TaskStatus.PENDING => 1/5
    | TaskStatus.ACTIVE => 1/2
    | TaskStatus.COMPLETED => 1
    | TaskStatus.FAILED => 0
    | TaskStatus.CANCELLED => 1/10
    | TaskStatus.SUSPENDED => 3/10
  { st with
    task_status := setA st.task_status task s
    atoms := setTV st.atoms task (strength, 9/10) }

/-- `TaskManager::completeTask`: status becomes COMPLETED or FAILED; the
current-task reference is cleared when it matches. -/
def completeTask (st : TMState) (task : Nat) (success : Bool) : Bool × TMState :=
  let st1 := updateTaskStatus st task (if success then TaskStatus.COMPLETED else TaskStatus.FAILED)
  (true, if st1.current_task = some task then { st1 with current_task := none } else st1)

/-- `TaskManager::clearPendingTasks`: pop the whole pending queue, counting;
nothing else is touched. -/
def clearPendingTasks (st : TMState) : Nat × TMState :=
  (st.task_queue.length, { st with task_queue := [] })

/-- `TaskManager::addSubgoal`: fails on an undefined parent or empty
description; otherwise creates the subgoal atom, the Inheritance hierarchy
link, the `subgoal_of` Evaluation link, a membership link into the goal
context, and sets the subgoal's truth value to (0, 0.8). -/
def addSubgoal (st : TMState) (parent : Option Nat) (desc : String) : Option Nat × TMState :=
  match parent with
  | none => (none, st)
  | some pg =>
    if desc = "" then (none, st)
    else
      let (sg, as1) := createGoalAtom st.atoms desc
      let (_, as2) := addLink as1 AType.INHERITANCE_LINK [pg, sg]
      let (pr, as3) := addNode as2 AType.PREDICATE_NODE ("subgoal_of")
      let (ev, as4) := addLink as3 AType.EVALUATION_LINK [pr, sg, pg]
      let as5 := setTV as4 ev (1, 9/10)
      let (_, as6) := addLink as5 AType.MEMBER_LINK [sg, st.goal_context]
      let as7 := setTV as6 sg (0, 4/5)
      (some sg, { st with atoms := as7 })

/-- `TaskManager::findTaskForGoal`: the first Evaluation link with exactly
two targets whose second target is the goal yields the task; otherwise a
goal named `Goal_<x>` falls back to the first concept node named
`Task_<x>`. -/
def findTaskForGoal (st : TMState) (goal : Option Nat) : Option Nat :=
  match goal with
  | none => none
  | some g =>
    let evals := getAtomsByType st.atoms AType.EVALUATION_LINK
    match evals.find?
        (fun i => (atomAt st.atoms i).out.length == 2 && (atomAt st.atoms i).out.getD 1 0 == g) with
    | some i => some ((atomAt st.atoms i).out.getD 0 0)
    | none =>
      let gname := (atomAt st.atoms g).name
      if gname.startsWith ("Goal_") then
        match getAtomsByName st.atoms AType.CONCEPT_NODE ("Task_" ++ gname.drop 5) with
        | [] => none
        | c :: _ => some c
      else none

/-- The loop body of `TaskManager::decomposeGoal`: for each subgoal name in
template order, add the subgoal, create its task (HIGH priority for the
first, MEDIUM after), and chain a dependency on the previous subgoal's
task.  `prevSub` is `subgoal_atoms[i-1]` (absent on the first step). -/
def decomposeLoop : TMState → Nat → Option (Option Nat) → List String → TMState
  | st, _, _, [] => st
  | st, goal, prevSub, nm :: rest =>
    let (sg, st1) := addSubgoal st (some goal) nm
    let prio := if prevSub.isNone then Priority.HIGH else Priority.MEDIUM
    let (task, st2) := createTask st1 ("Task_" ++ nm) prio sg
    let st3 :=
      match prevSub with
      | none => st2
      | some psg =>
        match findTaskForGoal st2 psg with
        | none => st2
        | some prevTask => (addTaskDependency st2 task prevTask).2
    decomposeLoop st3 goal (some sg) rest

/-- The fixed subgoal templates of `TaskManager::decomposeGoal`, selected
by substring match on the goal atom's name. -/
def subgoalTemplate (gname : String) : List String :=
  if strContains gname ("learn") || strContains gname ("study") then
    ["Identify_Learning_Objectives", "Gather_Resources", "Acquire_Knowledge",
     "Practice_Skills", "Validate_Understanding"]
  else if strContains gname ("solve") || strContains gname ("problem") then
    ["Define_Problem", "Analyze_Constraints", "Generate_Solutions",
     "Evaluate_Options", "Implement_Solution", "Test_Result"]
  else if strContains gname ("create") || strContains gname ("build") then
    ["Conceptualize_Design", "Plan_Implementation", "Gather_Resources",
     "Execute_Construction", "Test_Quality", "Refine_Output"]
  else if strContains gname ("communicate") || strContains gname ("interact") then
    ["Understand_Context", "Plan_Message", "Select_Medium",
     "Deliver_Communication", "Verify_Understanding"]
  else
    ["Analyze_Goal_Context", "Plan_Approach", "Identify_Resources",
     "Execute_Actions", "Monitor_Progress", "Verify_Achievement"]

/-- `TaskManager::decomposeGoal`: record the goal under the hierarchy root,
expand the matching template, then mark the goal decomposed. -/
def decomposeGoal (st : TMState) (goal : Option Nat) : Bool × TMState :=
  match goal with
  | none => (false, st)
  | some g =>
    let gname := (atomAt st.atoms g).name
    let (_, as1) := addLink st.atoms AType.LIST_LINK [st.goal_hierarchy_root, g]
    let st1 := decomposeLoop { st with atoms := as1 } g none (subgoalTemplate gname)
    let (dpr, c1) := addNode st1.atoms AType.PREDICATE_NODE ("decomposed")
    let (dev, c2) := addLink c1 AType.EVALUATION_LINK [dpr, g]
    let c3 := setTV c2 dev (1, 9/10)
    (true, { st1 with atoms := c3 })

/-- `TaskManager::setGoal`: fails on an empty description; creates the
goal atom, suspends any previous current goal, records the active-goal
relation, context membership and creation timestamp, then either
auto-decomposes or creates a single primary task.  The timestamp text
(`std::time`) is modelled as the constant "0"; its value never influences
behavior (the NumberNode participates in no lookup). -/
def setGoal (st : TMState) (desc : String) (auto : Bool) : Option Nat × TMState :=
  if desc = "" then (none, st)
  else
    let (goal, as1) := createGoalAtom st.atoms desc
    let as2 :=
      match st.current_goal with
      | some cg =>
        let (pr, x1) := addNode as1 AType.PREDICATE_NODE ("suspended")
        let (ev, x2) := addLink x1 AType.EVALUATION_LINK [pr, cg]
        setTV x2 ev (3/10, 4/5)
      | none => as1
    let st1 := { st with atoms := as2, current_goal := some goal }
    let (apr, b1) := addNode st1.atoms AType.PREDICATE_NODE ("active_goal")
    let (aev, b2) := addLink b1 AType.EVALUATION_LINK [apr, goal]
    let b3 := setTV b2 aev (1, 19/20)
    let (_, b4) := addLink b3 AType.MEMBER_LINK [goal, st.goal_context]
    let (tpr, b5) := addNode b4 AType.PREDICATE_NODE ("goal_created")
    let (tsv, b6) := addNode b5 AType.NUMBER_NODE ("0")
    let (_, b7) := addLink b6 AType.EVALUATION_LINK [tpr, goal, tsv]
    let st2 := { st1 with atoms := b7 }
    let st3 :=
      if auto && st.enable_goal_decomposition then (decomposeGoal st2 (some goal)).2
      else (createTask st2 ("Primary_" ++ desc) Priority.HIGH (some goal)).2
    (some goal, st3)

/-- The subgoals of a goal: second targets of binary Inheritance links
whose first target is the goal (`calculateGoalAchievement`, lines
506-514). -/
def subgoalsOf (st : TMState) (g : Nat) : List Nat :=
  (getIncomingByType st.atoms g AType.INHERITANCE_LINK).filterMap (fun i =>
    match (atomAt st.atoms i).out with
    | [a, b] => if a = g then some b else none
    | _ => none)

/-- `total_achievement`: the sum of strength·confidence over the subgoal
achievements (`calculateGoalAchievement`, lines 531-549). -/
def sumProd (tvs : List TV) : Rat := (tvs.map (fun p => p.1 * p.2)).sum

/-- `total_confidence`: the sum of subgoal confidences. -/
def sumConf (tvs : List TV) : Rat := (tvs.map (fun p => p.2)).sum

/-- `final_achievement` before the bonus: the confidence-weighted average,
0 when the total confidence is not positive. -/
def baseAchievement (tvs : List TV) : Rat :=
  if 0 < sumConf tvs then sumProd tvs / sumConf tvs else 0

/-- `final_confidence` before the bonus: average confidence capped at 0.9. -/
def baseConfidence (tvs : List TV) : Rat :=
  min (9/10) (sumConf tvs / (tvs.length : Rat))

/-- The subgoal-combination step of `calculateGoalAchievement` (lines
531-559): weighted average and capped average confidence, plus the bonus
(+0.1 strength capped at 1, +0.05 confidence capped at 0.95) when every
subgoal's strength exceeds 0.8 and there is at least one subgoal. -/
def aggregateSubgoalAchievements (tvs : List TV) : TV :=
  if tvs.countP (fun p => p.1 > 4/5) = tvs.length ∧ tvs.length ≠ 0 then
    (min 1 (baseAchievement tvs + 1/10), min (19/20) (baseConfidence tvs + 1/20))
  else (baseAchievement tvs, baseConfidence tvs)

/-- `TaskManager::calculateGoalAchievement`.  The C++ recursion has no
termination guard (a cyclic hierarchy would not return); the model adds a
fuel parameter, and fuel exhaustion — unreachable for the acyclic inputs
the spec assumes, given enough fuel — returns the error fallback (0, 0.1).
A goal without subgoals falls back to its associated task's status
(COMPLETED then 1, ACTIVE then 0.5, else 0, with confidence 0.9) or, absent a
task, to the goal atom's own truth value. -/
def calculateGoalAchievement : Nat → TMState → Option Nat → TV
  | _, _, none => (0, 9/10)
  | 0, _, some _ => (0, 1/10)
  | fuel+1, st, some g =>
    let subs := subgoalsOf st g
    if subs.isEmpty then
      match findTaskForGoal st (some g) with
      | some t =>
        let s := getTaskStatus st t
        ((if s = TaskStatus.COMPLETED then 1 else if s = TaskStatus.ACTIVE then 1/2 else 0), 9/10)
      | none => getTV st.atoms g
    else
      aggregateSubgoalAchievements (subs.map (fun sg => calculateGoalAchievement fuel st (some sg)))

/-- `TaskManager::isGoalAchieved` delegates to `calculateGoalAchievement`;
the model supplies fuel exceeding any acyclic hierarchy depth. -/
def isGoalAchieved (st : TMState) (goal : Option Nat) : TV :=
  calculateGoalAchievement (st.atoms.length + 1) st goal

/-- A freshly constructed `TaskManager` (agent name "Agent"):
`initializeTaskManagement` creates the four context nodes; both feature
flags default to enabled and no goal or task exists. -/
def initTM : TMState :=
  { atoms :=
      [⟨AType.CONCEPT_NODE, "Agent_TaskContext", [], defaultTV⟩,
       ⟨AType.CONCEPT_NODE, "Agent_GoalContext", [], defaultTV⟩,
       ⟨AType.CONCEPT_NODE, "Agent_ExecutionContext", [], defaultTV⟩,
       ⟨AType.CONCEPT_NODE, "Agent_GoalHierarchy", [], defaultTV⟩]
    task_queue := []
    task_status := []
    task_priorities := []
    task_dependencies := []
    current_task := none
    current_goal := none
    goal_hierarchy_root := 3
    task_context := 0
    goal_context := 1
    execution_context := 2
    enable_goal_decomposition := true
    enable_priority_scheduling := true }

/-!
## KnowledgeIntegrator (KnowledgeIntegrator.cpp)
-/

/-- The mutable state of a `KnowledgeIntegrator` object. -/
structure KIState where
  atoms : List Atom
  registry : List (String × Nat)
  knowledge_base : Nat
  working_knowledge : Nat
  semantic_network : Nat
  episodic_memory : Nat
  procedural_memory : Nat
  categories : List (KnowledgeType × Nat)
  enable_concept_formation : Bool
  deriving DecidableEq, Repr

/-- The names registered in the concept registry. -/
def regKeys (r : List (String × Nat)) : List String := r.map (fun p => p.1)

/-- `KnowledgeIntegrator::findOrCreateConcept`: registry lookup, else
create the concept node and record it under its name. -/
def findOrCreateConcept (st : KIState) (nm : String) : Nat × KIState :=
  match lookupA st.registry nm with
  | some h => (h, st)
  | none =>
    let r := addNode st.atoms AType.CONCEPT_NODE nm
    (r.1, { st with atoms := r.2, registry := setA st.registry nm r.1 })

/-- `KnowledgeIntegrator::hasKnowledgeAbout`: registry membership. -/
def hasKnowledgeAbout (st : KIState) (nm : String) : Bool :=
  (lookupA st.registry nm).isSome

/-- `KnowledgeIntegrator::createKnowledgeAtom`: prefix the content by its
knowledge type, create the node, and membership-link it into its category
root. -/
def createKnowledgeAtom (st : KIState) (content : String) (kt : KnowledgeType) : Nat × KIState :=
  let pre :=
    match kt with
    | KnowledgeType.FACTUAL => "Fact_"
    | KnowledgeType.PROCEDURAL => "Proc_"
    | KnowledgeType.EPISODIC => "Episode_"
    | KnowledgeType.SEMANTIC => "Semantic_"
    | KnowledgeType.CONDITIONAL => "Rule_"
    | KnowledgeType.TEMPORAL => "Temporal_"
  let r := addNode st.atoms AType.CONCEPT_NODE (pre ++ content)
  let as2 :=
    match lookupA st.categories kt with
    | some cat => (addLink r.2 AType.MEMBER_LINK [cat, r.1]).2
    | none => r.2
  (r.1, { st with atoms := as2 })

/-- `KnowledgeIntegrator::addFact`: factual knowledge atom with truth value
(confidence/100, 0.9), membership-linked to the knowledge base. -/
def addFact (st : KIState) (desc : String) (conf : ConfidenceLevel) : Nat × KIState :=
  let r := createKnowledgeAtom st desc KnowledgeType.FACTUAL
  let st2 := { r.2 with atoms := setTV r.2.atoms r.1 ((ConfidenceLevel.toInt conf : Rat) / 100, 9/10) }
  (r.1, { st2 with atoms := (addLink st2.atoms AType.MEMBER_LINK [st.knowledge_base, r.1]).2 })

/-- `KnowledgeIntegrator::registerConcept`: idempotent lookup-or-create; a
non-empty description is additionally recorded as a high-confidence fact. -/
def registerConcept (st : KIState) (nm desc : String) : Nat × KIState :=
  let r := findOrCreateConcept st nm
  if desc = "" then r
  else (r.1, (addFact r.2 (nm ++ " is " ++ desc) ConfidenceLevel.HIGH).2)

/-- Term cleanup in `formConceptsFrom` (lines 423-428): drop
non-alphanumeric characters and lower-case the rest. -/
def cleanTerm (t : String) : String :=
  String.mk ((t.toList.filter Char.isAlphanum).map Char.toLower)

/-- `std::istringstream >> term` tokenization: split on whitespace, ignore
empty runs. -/
def tokenizeWs (s : String) : List String :=
  (s.split (fun c => c.isWhitespace)).filter (fun t => t ≠ "")

/-- All cleaned terms of length > 2 contributed to `term_frequency`, one
occurrence per token, over every experience item name. -/
def cleanedLongTerms (names : List String) : List String :=
  names.flatMap (fun nm => ((tokenizeWs nm).map cleanTerm).filter (fun t => t.length > 2))

/-- The distinct keys of `term_frequency`.  The C++ `std::map` iterates in
sorted key order; no behavior observed by the spec depends on that order,
and the model iterates in the (equally definite) order `List.dedup`
produces. -/
def termKeys (names : List String) : List String :=
  (cleanedLongTerms names).dedup

/-- `min_frequency = std::max(2, static_cast<int>(experience_atoms.size() * 0.3))`
(line 437).  The cast truncates the double `n * 0.3` toward zero; because
the rounding error of `0.3` scaled by `n` is always below half an ulp of
`0.3·n`, the double result truncates to exactly `⌊3n/10⌋` — in
particular this is the floor, not the ceiling, of `0.3·n`. -/
def minFrequency (n : Nat) : Nat := max 2 (3 * n / 10)

/-- The description `formConceptsFrom` registers new concepts with. -/
def autoFormedDesc : String := "Auto-formed concept from experience patterns"

/-- The concept-formation loop over `term_frequency` (lines 439-453):
register `Concept_<term>` for each sufficiently frequent term not already
registered, accumulating the new concept handles in iteration order. -/
def formLoop (toks : List String) (n : Nat) : KIState → List String → List Nat × KIState
  | st, [] => ([], st)
  | st, k :: ks =>
    if minFrequency n ≤ toks.count k ∧ hasKnowledgeAbout st ("Concept_" ++ k) = false then
      let r := registerConcept st ("Concept_" ++ k) autoFormedDesc
      let rs := formLoop toks n r.2 ks
      (r.1 :: rs.1, rs.2)
    else formLoop toks n st ks

/-- `KnowledgeIntegrator::formConceptsFrom`.  The C++ function receives
experience atoms and reads only their names; the model takes the names. -/
def formConceptsFrom (st : KIState) (names : List String) : List Nat × KIState :=
  if st.enable_concept_formation = false then ([], st)
  else formLoop (cleanedLongTerms names) names.length st (termKeys names)

/-- The names of the concepts `formConceptsFrom` returns (read off the
final atom space). -/
def formConceptNames (st : KIState) (names : List String) : List String :=
  let r := formConceptsFrom st names
  r.1.map (fun h => (atomAt r.2.atoms h).name)

/-- A freshly constructed `KnowledgeIntegrator` (agent name "Agent"):
`initializeKnowledgeStructures` creates the five memory roots and the
facts category; concept formation defaults to enabled. -/
def kiInit : KIState :=
  { atoms :=
      [⟨AType.CONCEPT_NODE, "Agent_KnowledgeBase", [], defaultTV⟩,
       ⟨AType.CONCEPT_NODE, "Agent_WorkingKnowledge", [], defaultTV⟩,
       ⟨AType.CONCEPT_NODE, "Agent_SemanticNetwork", [], defaultTV⟩,
       ⟨AType.CONCEPT_NODE, "Agent_EpisodicMemory", [], defaultTV⟩,
       ⟨AType.CONCEPT_NODE, "Agent_ProceduralMemory", [], defaultTV⟩,
       ⟨AType.CONCEPT_NODE, "Agent_Facts", [], defaultTV⟩]
    registry := []
    knowledge_base := 0
    working_knowledge := 1
    semantic_network := 2
    episodic_memory := 3
    procedural_memory := 4
    categories :=
      [(KnowledgeType.FACTUAL, 5), (KnowledgeType.PROCEDURAL, 4),
       (KnowledgeType.EPISODIC, 3), (KnowledgeType.SEMANTIC, 2)]
    enable_concept_formation := true }

/-!
`validateKnowledgeConsistency`, `queryKnowledge` and
`updateKnowledgeConfidence` read the store through
`get_handles_by_type(ATOM, true)`; the store leaves that enumeration order
unspecified, so the model takes the enumerated atoms (handle, name, truth
value) as input.
-/

/-- One atom as enumerated by the store. -/
structure StoreAtom where
  h : Nat
  name : String
  tv : TV
  deriving DecidableEq, Repr

/-- The grouping key of `validateKnowledgeConsistency` (lines 479-483):
the characters before the first space, absent when the name contains no
space (such names are skipped). -/
def subjectOf (nm : String) : Option String :=
  let cs := nm.toList
  if cs.contains ' ' then some (String.mk (cs.takeWhile (fun c => c ≠ ' '))) else none

/-- The contradiction scan within one group (lines 490-507): for every
index pair i < j, when the earlier atom's strength exceeds 0.5 and the
later one's is below 0.5, push both. -/
def flagPairs : List StoreAtom → List StoreAtom
  | [] => []
  | a :: rest =>
    (rest.flatMap (fun b => if a.tv.1 > 1/2 ∧ b.tv.1 < 1/2 then [a, b] else [])) ++ flagPairs rest

/-- `KnowledgeIntegrator::validateKnowledgeConsistency`: group atoms by
the first space-delimited token of their name, then scan each group of
size > 1 for contradictory pairs.  Each group holds its atoms in store
enumeration order; the C++ `std::map` iterates the groups in sorted
subject order, the model in `List.dedup` order — no claim observes the
relative order of distinct groups. -/
def validateKnowledgeConsistency (atoms : List StoreAtom) : List StoreAtom :=
  let subjects := (atoms.filterMap (fun a => subjectOf a.name)).dedup
  subjects.flatMap (fun s =>
    let g := atoms.filter (fun a => subjectOf a.name = some s)
    if g.length > 1 then flagPairs g else [])

/-- `static_cast<size_t>(max_results)` on a (32-bit) int: reduction modulo
2^64, so a negative bound becomes astronomically large. -/
def castSizeT (m : Int) : Nat := (m % ((2 : Int) ^ 64)).toNat

/-- The scan loop of `queryKnowledge` (lines 153-161): append each atom
whose name contains the query, stopping once the result count reaches the
cast bound (checked after pushing). -/
def queryLoop (q : String) (bound : Nat) : List StoreAtom → List Nat → List Nat
  | [], acc => acc
  | a :: rest, acc =>
    if strContains a.name q then
      let acc1 := acc ++ [a.h]
      if bound ≤ acc1.length then acc1 else queryLoop q bound rest acc1
    else queryLoop q bound rest acc

/-- `KnowledgeIntegrator::queryKnowledge`. -/
def queryKnowledge (atoms : List StoreAtom) (q : String) (maxResults : Int) : List Nat :=
  queryLoop q (castSizeT maxResults) atoms []

/-- `static_cast<int>(new_confidence * 100)`: truncation toward zero. -/
def confPercent (q : Rat) : Int := if 0 ≤ q then q.floor else -((-q).floor)

/-- The five-level bucketing of `updateKnowledgeConfidence` (lines 556-561). -/
def bucketConfidence (nc : Rat) : ConfidenceLevel :=
  let cp := confPercent (nc * 100)
  if 90 ≤ cp then ConfidenceLevel.VERY_HIGH
  else if 70 ≤ cp then ConfidenceLevel.HIGH
  else if 40 ≤ cp then ConfidenceLevel.MEDIUM
  else if 20 ≤ cp then ConfidenceLevel.LOW
  else ConfidenceLevel.VERY_LOW

/-- `KnowledgeIntegrator::updateKnowledgeConfidence`: VERY_LOW for an
undefined item; with at least one defined evidence handle, average the
evidence strength·confidence products, revise the item's truth value and
bucket the new confidence; with no valid evidence, return MEDIUM without
mutating anything. -/
def updateKnowledgeConfidence (atoms : List Atom) (item : Option Nat)
    (evidence : List (Option Nat)) : ConfidenceLevel × List Atom :=
  match item with
  | none => (ConfidenceLevel.VERY_LOW, atoms)
  | some i =>
    let cur := getTV atoms i
    let valid := evidence.filterMap id
    if valid.length > 0 then
      let evidenceMean :=
        ((valid.map (fun e => (getTV atoms e).1 * (getTV atoms e).2)).sum) / (valid.length : Rat)
      let ns := (cur.1 + evidenceMean) / 2
      let nc := min 1 (cur.2 + evidenceMean * (1/10))
      (bucketConfidence nc, setTV atoms i (ns, nc))
    else (ConfidenceLevel.MEDIUM, atoms)

/-!
## Claim C10: clearPendingTasks frame
-/

/-- **C10.** For every TaskGoalManager state, `clearPendingTasks` empties
the pending queue and returns the number of entries removed, while leaving
statuses, priorities, dependencies and the atom space untouched, so a
cleared task keeps its status and `getNextTask` is unaffected. -/
theorem clearPendingTasks_frame (st : TMState) :
    (clearPendingTasks st).1 = st.task_queue.length ∧
    (clearPendingTasks st).2.task_queue = [] ∧
    (clearPendingTasks st).2.task_status = st.task_status ∧
    (clearPendingTasks st).2.task_priorities = st.task_priorities ∧
    (clearPendingTasks st).2.task_dependencies = st.task_dependencies ∧
    (clearPendingTasks st).2.atoms = st.atoms ∧
    (∀ t, getTaskStatus (clearPendingTasks st).2 t = getTaskStatus st t) ∧
    getNextTask (clearPendingTasks st).2 = getNextTask st :=
  ⟨rfl, rfl, rfl, rfl, rfl, rfl, fun _ => rfl, rfl⟩

/-!
## Claim C9: updateKnowledgeConfidence with no valid evidence
-/

/-- **C9.** For every defined knowledge item handle, calling
`updateKnowledgeConfidence` with an evidence list containing no defined
evidence handle returns MEDIUM and leaves the stored truth values (in
particular the item's strength and confidence) unchanged. -/
theorem updateKnowledgeConfidence_noValidEvidence (atoms : List Atom) (i : Nat)
    (evidence : List (Option Nat)) (hev : ∀ e ∈ evidence, e = none) :
    updateKnowledgeConfidence atoms (some i) evidence = (ConfidenceLevel.MEDIUM, atoms) := by
  have hv : evidence.filterMap id = [] := by
    induction evidence with
    | nil => rfl
    | cons e es ih =>
      have he : e = none := hev e (by simp)
      subst he
      simpa using ih (fun x hx => hev x (by simp [hx]))
  simp [updateKnowledgeConfidence, hv]

/-- Witness for C9 at a concrete store and evidence list. -/
theorem updateKnowledgeConfidence_noValidEvidence_witness :
    (∀ e ∈ ([none, none] : List (Option Nat)), e = none) ∧
    updateKnowledgeConfidence [⟨AType.CONCEPT_NODE, "Fact_x", [], (1/2, 1/2)⟩] (some 0)
        [none, none]
      = (ConfidenceLevel.MEDIUM, [⟨AType.CONCEPT_NODE, "Fact_x", [], (1/2, 1/2)⟩]) :=
  ⟨by decide,
   updateKnowledgeConfidence_noValidEvidence _ 0 [none, none] (by decide)⟩

/-!
## Claim C3: queryKnowledge bound
-/

/-- Unfolding the query scan: as long as the accumulator is below the
bound, the loop returns the accumulator extended by the handles of the
matching atoms, truncated at the bound. -/
theorem queryLoop_eq_take (q : String) (b : Nat) :
    ∀ (atoms : List StoreAtom) (acc : List Nat), acc.length < b →
      queryLoop q b atoms acc
        = acc ++ (((atoms.filter (fun a => strContains a.name q)).map
            (fun a => a.h)).take (b - acc.length)) := by
  intro atoms
  induction atoms with
  | nil => intro acc _; simp [queryLoop]
  | cons a rest ih =>
    intro acc hacc
    by_cases hm : strContains a.name q = true
    · simp only [queryLoop, hm, if_true]
      by_cases hb : b ≤ (acc ++ [a.h]).length
      · rw [if_pos hb]
        have hb1 : b - acc.length = 1 := by
          simp only [List.length_append, List.length_cons, List.length_nil] at hb
          omega
        simp [List.filter_cons, hm, hb1]
      · rw [if_neg hb]
        have h2 : (acc ++ [a.h]).length < b := by
          simp only [List.length_append, List.length_cons, List.length_nil] at hb ⊢
          omega
        rw [ih (acc ++ [a.h]) h2]
        have h3 : b - acc.length = (b - (acc ++ [a.h]).length) + 1 := by
          simp only [List.length_append, List.length_cons, List.length_nil]
          omega
        simp [List.filter_cons, hm, h3, List.take_succ_cons]
    · have hm0 : strContains a.name q = false := by
        exact Bool.not_eq_true _ ▸ (by simpa using hm)
      simp only [queryLoop, hm0, if_false, Bool.false_eq_true]
      rw [ih acc hacc]
      simp [List.filter_cons, hm0]

/-- **C3 amended.** For every query text and every positive `maxResults`
(in the int range), `queryKnowledge` returns the handles of the first
`maxResults` atoms whose names contain the query as a substring, in store
enumeration order — in particular at most `maxResults` of them.  (The
original claim with arbitrary integer `maxResults` fails: see the
counterexample at `maxResults = 0`.) -/
theorem queryKnowledge_spec (atoms : List StoreAtom) (q : String) (m : Int)
    (h1 : 1 ≤ m) (h2 : m < 2 ^ 31) :
    queryKnowledge atoms q m
      = ((atoms.filter (fun a => strContains a.name q)).map (fun a => a.h)).take m.toNat := by
  have hcast : castSizeT m = m.toNat := by
    unfold castSizeT
    have hlt : m < (2 : Int) ^ 64 := by
      have : (2 : Int) ^ 31 < 2 ^ 64 := by norm_num
      omega
    rw [Int.emod_eq_of_lt (by omega) hlt]
  unfold queryKnowledge
  rw [hcast, queryLoop_eq_take q m.toNat atoms [] (by simp; omega)]
  simp

/-- The store used in the C3 counterexample. -/
def queryStoreOne : List StoreAtom := [⟨0, "abc", (1, 0)⟩]

/-- **C3 counterexample.** With `maxResults = 0` and one matching atom,
`queryKnowledge` still returns that atom (the bound is checked only after
pushing), so it returns more than `maxResults` items. -/
theorem queryKnowledge_zero_counterexample :
    queryKnowledge queryStoreOne ("a") 0 = [0] ∧
    ¬ (((queryKnowledge queryStoreOne ("a") 0).length : Int) ≤ 0) := by decide

/-- The store used in the C3 witness. -/
def queryStoreThree : List StoreAtom :=
  [⟨0, "abc", (1, 0)⟩, ⟨1, "xaz", (1, 0)⟩, ⟨2, "qqq", (1, 0)⟩]

/-- Witness for the amended C3 at a concrete store and bound. -/
theorem queryKnowledge_spec_witness :
    (1 ≤ (2 : Int)) ∧ ((2 : Int) < 2 ^ 31) ∧
    queryKnowledge queryStoreThree ("a") 2
      = ((queryStoreThree.filter (fun a => strContains a.name ("a"))).map
          (fun a => a.h)).take (2 : Int).toNat :=
  ⟨by decide, by decide, queryKnowledge_spec queryStoreThree ("a") 2 (by decide) (by decide)⟩

/-!
## Claims C5 and C6: scheduling
-/

/-- What the `getNextTask` scan computes: a value no smaller (under `f`)
than the seed and every scanned element, which is either the seed itself
or occurs in the list strictly after every element of equal-or-higher
rank — i.e. the first maximum. -/
theorem pickBest_spec (f : Nat → Nat) (l : List Nat) (b : Nat) :
    f b ≤ f (pickBest f b l) ∧
    (∀ t ∈ l, f t ≤ f (pickBest f b l)) ∧
    (pickBest f b l = b ∨
      ∃ l₁ l₂, l = l₁ ++ pickBest f b l :: l₂ ∧ f b < f (pickBest f b l) ∧
        ∀ t ∈ l₁, f t < f (pickBest f b l)) := by
  induction l generalizing b with
  | nil => simp [pickBest]
  | cons a l ih =>
    have hred : pickBest f b (a :: l) = pickBest f (if f a > f b then a else b) l := rfl
    by_cases hab : f a > f b
    · rw [if_pos hab] at hred
      obtain ⟨h1, h2, h3⟩ := ih a
      rw [hred]
      refine ⟨le_trans (le_of_lt hab) h1, ?_, ?_⟩
      · intro t ht
        rcases List.mem_cons.mp ht with rfl | ht'
        · exact h1
        · exact h2 t ht'
      · right
        rcases h3 with heq | ⟨l₁, l₂, hl, hfa, hall⟩
        · refine ⟨[], l, ?_, ?_, ?_⟩
          · rw [heq]; rfl
          · rw [heq]; exact hab
          · intro t ht; exact absurd ht (List.not_mem_nil t)
        · refine ⟨a :: l₁, l₂, ?_, lt_trans hab hfa, ?_⟩
          · rw [List.cons_append, ← hl]
          · intro t ht
            rcases List.mem_cons.mp ht with rfl | ht'
            · exact hfa
            · exact hall t ht'
    · rw [if_neg hab] at hred
      push_neg at hab
      obtain ⟨h1, h2, h3⟩ := ih b
      rw [hred]
      refine ⟨h1, ?_, ?_⟩
      · intro t ht
        rcases List.mem_cons.mp ht with rfl | ht'
        · exact le_trans hab h1
        · exact h2 t ht'
      · rcases h3 with heq | ⟨l₁, l₂, hl, hfb, hall⟩
        · exact Or.inl heq
        · right
          refine ⟨a :: l₁, l₂, ?_, hfb, ?_⟩
          · rw [List.cons_append, ← hl]
          · intro t ht
            rcases List.mem_cons.mp ht with rfl | ht'
            · exact lt_of_le_of_lt hab hfb
            · exact hall t ht'

/-- Whatever `getNextTask` returns is a ready task. -/
theorem getNextTask_mem {st : TMState} {r : Nat} (h : getNextTask st = some r) :
    r ∈ getReadyTasks st := by
  unfold getNextTask at h
  cases hr : getReadyTasks st with
  | nil => rw [hr] at h; exact absurd h (by simp)
  | cons b rest =>
    rw [hr] at h
    cases hps : st.enable_priority_scheduling with
    | false =>
      rw [hps] at h
      simp only [Bool.not_false, if_true] at h
      exact (Option.some.inj h) ▸ List.mem_cons_self b rest
    | true =>
      rw [hps] at h
      simp only [Bool.not_true, Bool.false_eq_true, if_false] at h
      have hr2 : pickBest (prioNat st) b (b :: rest) = r := Option.some.inj h
      obtain ⟨_, _, h3⟩ := pickBest_spec (prioNat st) (b :: rest) b
      rcases h3 with heq | ⟨l₁, l₂, hl, _, _⟩
      · rw [← hr2, heq]; exact List.mem_cons_self b rest
      · rw [hl, hr2]; simp

/-- **C5.** A task with a recorded dependency whose status is not
COMPLETED is never in the ready set and is therefore never the task
`getNextTask` returns. -/
theorem dependencyGating (st : TMState) (t d : Nat) (deps : List Nat)
    (hdep : lookupA st.task_dependencies t = some deps) (hd : d ∈ deps)
    (hst : getTaskStatus st d ≠ TaskStatus.COMPLETED) :
    t ∉ getReadyTasks st ∧ getNextTask st ≠ some t := by
  have hchk : checkTaskDependencies st t = false := by
    unfold checkTaskDependencies
    rw [hdep]
    cases hall : (deps.all fun x => getTaskStatus st x == TaskStatus.COMPLETED) with
    | false => exact hall
    | true => exact absurd (eq_of_beq (List.all_eq_true.mp hall d hd)) hst
  have hnotmem : t ∉ getReadyTasks st := by
    intro hmem
    unfold getReadyTasks at hmem
    obtain ⟨p, hp, hpe⟩ := List.mem_map.mp hmem
    obtain ⟨_, hcond⟩ := List.mem_filter.mp hp
    have h2 : checkTaskDependencies st p.1 = true := by
      simp only [Bool.and_eq_true] at hcond
      exact hcond.2
    rw [hpe, hchk] at h2
    exact absurd h2 (by simp)
  exact ⟨hnotmem, fun hnx => hnotmem (getNextTask_mem hnx)⟩

/-- The state used by the C5 witness: task 2 depends on the pending
task 1. -/
def tmDepState : TMState :=
  { atoms := []
    task_queue := [1, 2]
    task_status := [(1, TaskStatus.PENDING), (2, TaskStatus.PENDING)]
    task_priorities := [(1, Priority.MEDIUM), (2, Priority.MEDIUM)]
    task_dependencies := [(2, [1])]
    current_task := none
    current_goal := none
    goal_hierarchy_root := 0
    task_context := 0
    goal_context := 0
    execution_context := 0
    enable_goal_decomposition := true
    enable_priority_scheduling := true }

/-- Witness for C5 at a concrete state. -/
theorem dependencyGating_witness :
    (lookupA tmDepState.task_dependencies 2 = some [1] ∧ (1 : Nat) ∈ [1] ∧
      getTaskStatus tmDepState 1 ≠ TaskStatus.COMPLETED) ∧
    (2 ∉ getReadyTasks tmDepState ∧ getNextTask tmDepState ≠ some 2) :=
  ⟨⟨by decide, by decide, by decide⟩,
   dependencyGating tmDepState 2 1 [1] (by decide) (by decide) (by decide)⟩

/-- **C6.** With priority scheduling enabled and a non-empty ready set,
`getNextTask` returns a ready task of maximal priority, and every ready
task enumerated before it has strictly smaller priority — it is the first
of the maximal-priority tasks. -/
theorem getNextTask_priority (st : TMState)
    (hps : st.enable_priority_scheduling = true) (hne : getReadyTasks st ≠ []) :
    ∃ r l₁ l₂, getNextTask st = some r ∧ getReadyTasks st = l₁ ++ r :: l₂ ∧
      (∀ u ∈ getReadyTasks st, prioNat st u ≤ prioNat st r) ∧
      (∀ u ∈ l₁, prioNat st u < prioNat st r) := by
  cases hr : getReadyTasks st with
  | nil => exact absurd hr hne
  | cons b rest =>
    have hg : getNextTask st = some (pickBest (prioNat st) b (b :: rest)) := by
      unfold getNextTask
      rw [hr, hps]
      simp
    have hred : pickBest (prioNat st) b (b :: rest) = pickBest (prioNat st) b rest := by
      simp [pickBest, List.foldl_cons, lt_irrefl]
    obtain ⟨h1, h2, h3⟩ := pickBest_spec (prioNat st) rest b
    rcases h3 with heq | ⟨l₁, l₂, hl, hfb, hall⟩
    · refine ⟨b, [], rest, by rw [hg, hred, heq], rfl, ?_, ?_⟩
      · intro u hu
        rcases List.mem_cons.mp hu with rfl | hu'
        · exact le_refl _
        · have := h2 u hu'; rw [heq] at this; exact this
      · intro u hu; exact absurd hu (List.not_mem_nil u)
    · refine ⟨pickBest (prioNat st) b rest, b :: l₁, l₂, by rw [hg, hred], ?_, ?_, ?_⟩
      · rw [List.cons_append, ← hl]
      · intro u hu
        rcases List.mem_cons.mp hu with rfl | hu'
        · exact h1
        · exact h2 u hu'
      · intro u hu
        rcases List.mem_cons.mp hu with rfl | hu'
        · exact hfb
        · exact hall u hu'

/-- The state used by the C6 witness: two ready tasks, the later one of
higher priority. -/
def tmPrioState : TMState :=
  { atoms := []
    task_queue := [1, 2]
    task_status := [(1, TaskStatus.PENDING), (2, TaskStatus.PENDING)]
    task_priorities := [(1, Priority.MEDIUM), (2, Priority.HIGH)]
    task_dependencies := []
    current_task := none
    current_goal := none
    goal_hierarchy_root := 0
    task_context := 0
    goal_context := 0
    execution_context := 0
    enable_goal_decomposition := true
    enable_priority_scheduling := true }

/-- Witness for C6 at a concrete state. -/
theorem getNextTask_priority_witness :
    (tmPrioState.enable_priority_scheduling = true ∧ getReadyTasks tmPrioState ≠ []) ∧
    (∃ r l₁ l₂, getNextTask tmPrioState = some r ∧
      getReadyTasks tmPrioState = l₁ ++ r :: l₂ ∧
      (∀ u ∈ getReadyTasks tmPrioState, prioNat tmPrioState u ≤ prioNat tmPrioState r) ∧
      (∀ u ∈ l₁, prioNat tmPrioState u < prioNat tmPrioState r)) :=
  ⟨⟨rfl, by decide⟩, getNextTask_priority tmPrioState rfl (by decide)⟩

/-!
## Claim C7: monotonicity of goal achievement
-/

/-- Pointwise relation between two lists of subgoal achievements: equal
confidences, non-decreasing strengths, with the belief-value range bounds
the recursion guarantees (confidence ≥ 0, strength ≤ 1). -/
def TVLe (a b : TV) : Prop := a.2 = b.2 ∧ a.1 ≤ b.1 ∧ 0 ≤ a.2 ∧ a.1 ≤ 1

theorem forall₂_sumConf_eq {tvs tvs' : List TV} (h : List.Forall₂ TVLe tvs tvs') :
    sumConf tvs = sumConf tvs' := by
  induction h with
  | nil => rfl
  | cons hab htail ih =>
    simp only [sumConf, List.map_cons, List.sum_cons] at ih ⊢
    rw [hab.1, ih]

theorem forall₂_sumProd_le {tvs tvs' : List TV} (h : List.Forall₂ TVLe tvs tvs') :
    sumProd tvs ≤ sumProd tvs' := by
  induction h with
  | nil => exact le_refl _
  | @cons a b l₁ l₂ hab htail ih =>
    simp only [sumProd, List.map_cons, List.sum_cons] at ih ⊢
    have h1 : a.1 * a.2 ≤ b.1 * b.2 := by
      rw [← hab.1]
      exact mul_le_mul_of_nonneg_right hab.2.1 hab.2.2.1
    exact add_le_add h1 ih

theorem forall₂_bounds {tvs tvs' : List TV} (h : List.Forall₂ TVLe tvs tvs') :
    ∀ p ∈ tvs, 0 ≤ p.2 ∧ p.1 ≤ 1 := by
  induction h with
  | nil => intro p hp; exact absurd hp (List.not_mem_nil p)
  | cons hab htail ih =>
    intro p hp
    rcases List.mem_cons.mp hp with rfl | hp'
    · exact ⟨hab.2.2.1, hab.2.2.2⟩
    · exact ih p hp'

theorem forall₂_bonus {tvs tvs' : List TV} (h : List.Forall₂ TVLe tvs tvs')
    (hc : ∀ a ∈ tvs, a.1 > 4/5) : ∀ b ∈ tvs', b.1 > 4/5 := by
  induction h with
  | nil => intro b hb; exact absurd hb (List.not_mem_nil b)
  | @cons a b l₁ l₂ hab htail ih =>
    intro x hx
    rcases List.mem_cons.mp hx with rfl | hx'
    · exact lt_of_lt_of_le (hc a (List.mem_cons_self a l₁)) hab.2.1
    · exact ih (fun y hy => hc y (List.mem_cons_of_mem a hy)) x hx'

theorem sumProd_le_sumConf (tvs : List TV) (hb : ∀ p ∈ tvs, 0 ≤ p.2 ∧ p.1 ≤ 1) :
    sumProd tvs ≤ sumConf tvs := by
  induction tvs with
  | nil => exact le_refl _
  | cons p l ih =>
    simp only [sumProd, sumConf, List.map_cons, List.sum_cons] at ih ⊢
    have hp := hb p (List.mem_cons_self p l)
    have h1 : p.1 * p.2 ≤ p.2 := mul_le_of_le_one_left hp.1 hp.2
    exact add_le_add h1 (ih (fun q hq => hb q (List.mem_cons_of_mem p hq)))

/-- **C7.** The achievement strength `calculateGoalAchievement` assigns to
a goal with subgoals is `aggregateSubgoalAchievements` of the subgoal
achievements; holding every subgoal confidence fixed, that strength is
monotonically non-decreasing in the subgoal achievement strengths (over
the [0,1] range the recursion produces). -/
theorem aggregateSubgoalAchievements_mono (tvs tvs' : List TV)
    (h : List.Forall₂ TVLe tvs tvs') :
    (aggregateSubgoalAchievements tvs).1 ≤ (aggregateSubgoalAchievements tvs').1 := by
  have hC := forall₂_sumConf_eq h
  have hA := forall₂_sumProd_le h
  have hbnd := forall₂_bounds h
  have hlen := List.Forall₂.length_eq h
  have hfa : baseAchievement tvs ≤ baseAchievement tvs' := by
    unfold baseAchievement
    rw [← hC]
    by_cases hpos : 0 < sumConf tvs
    · rw [if_pos hpos, if_pos hpos]
      exact (div_le_div_iff_of_pos_right hpos).mpr hA
    · rw [if_neg hpos, if_neg hpos]
  have hfa1 : baseAchievement tvs ≤ 1 := by
    unfold baseAchievement
    by_cases hpos : 0 < sumConf tvs
    · rw [if_pos hpos, div_le_one hpos]
      exact sumProd_le_sumConf tvs hbnd
    · rw [if_neg hpos]; norm_num
  by_cases hb1 : tvs.countP (fun p => p.1 > 4/5) = tvs.length ∧ tvs.length ≠ 0
  · have hb2 : tvs'.countP (fun p => p.1 > 4/5) = tvs'.length ∧ tvs'.length ≠ 0 := by
      refine ⟨?_, by rw [← hlen]; exact hb1.2⟩
      rw [List.countP_eq_length]
      have hall : ∀ a ∈ tvs, a.1 > 4/5 := by
        have := hb1.1
        rw [List.countP_eq_length] at this
        intro a ha
        simpa using this a ha
      intro b hbmem
      simpa using forall₂_bonus h hall b hbmem
    unfold aggregateSubgoalAchievements
    rw [if_pos hb1, if_pos hb2]
    exact min_le_min (le_refl 1) (by linarith)
  · by_cases hb2 : tvs'.countP (fun p => p.1 > 4/5) = tvs'.length ∧ tvs'.length ≠ 0
    · unfold aggregateSubgoalAchievements
      rw [if_neg hb1, if_pos hb2]
      exact le_min hfa1 (by linarith)
    · unfold aggregateSubgoalAchievements
      rw [if_neg hb1, if_neg hb2]
      exact hfa

/-- Witness for C7 at concrete subgoal-achievement lists. -/
theorem aggregateSubgoalAchievements_mono_witness :
    List.Forall₂ TVLe [((1 : Rat)/2, 9/10), (1, 9/10)] [((9 : Rat)/10, 9/10), (1, 9/10)] ∧
    (aggregateSubgoalAchievements [((1 : Rat)/2, 9/10), (1, 9/10)]).1
      ≤ (aggregateSubgoalAchievements [((9 : Rat)/10, 9/10), (1, 9/10)]).1 := by
  have hf : List.Forall₂ TVLe [((1 : Rat)/2, 9/10), (1, 9/10)] [((9 : Rat)/10, 9/10), (1, 9/10)] := by
    refine List.Forall₂.cons ⟨rfl, by norm_num, by norm_num, by norm_num⟩ ?_
    refine List.Forall₂.cons ⟨rfl, le_refl _, by norm_num, le_refl _⟩ List.Forall₂.nil
  exact ⟨hf, aggregateSubgoalAchievements_mono _ _ hf⟩

/-!
## Claim C8: registerConcept idempotence and registry uniqueness
-/

theorem lookupA_cons {κ α : Type} [DecidableEq κ] (p : κ × α) (l : List (κ × α)) (k : κ) :
    lookupA (p :: l) k = if p.1 = k then some p.2 else lookupA l k := by
  by_cases h : p.1 = k
  · simp [lookupA, List.find?_cons_of_pos, h]
  · simp [lookupA, List.find?_cons_of_neg, h]

theorem lookupA_setA_self {κ α : Type} [DecidableEq κ] (l : List (κ × α)) (k : κ) (v : α) :
    lookupA (setA l k v) k = some v := by
  induction l with
  | nil => simp [setA, lookupA]
  | cons p rest ih =>
    by_cases h : p.1 = k
    · simp [setA, h, lookupA_cons]
    · simp only [setA, if_neg h]
      rw [lookupA_cons, if_neg h]
      exact ih

theorem lookupA_none_forall {κ α : Type} [DecidableEq κ] {l : List (κ × α)} {k : κ}
    (h : lookupA l k = none) : ∀ p ∈ l, p.1 ≠ k := by
  intro p hp
  unfold lookupA at h
  rw [Option.map_eq_none'] at h
  simpa using List.find?_eq_none.mp h p hp

theorem setA_eq_append {κ α : Type} [DecidableEq κ] {l : List (κ × α)} {k : κ} (v : α)
    (h : lookupA l k = none) : setA l k v = l ++ [(k, v)] := by
  induction l with
  | nil => rfl
  | cons p rest ih =>
    have hne : p.1 ≠ k := lookupA_none_forall h p (List.mem_cons_self p rest)
    have htail : lookupA rest k = none := by
      rw [lookupA_cons, if_neg hne] at h
      exact h
    simp [setA, hne, ih htail]

/-- `addFact` never touches the concept registry. -/
theorem addFact_registry (st : KIState) (desc : String) (conf : ConfidenceLevel) :
    (addFact st desc conf).2.registry = st.registry := rfl

/-- After `findOrCreateConcept`, the registry maps the name to the
returned handle. -/
theorem findOrCreateConcept_key (st : KIState) (nm : String) :
    lookupA (findOrCreateConcept st nm).2.registry nm = some (findOrCreateConcept st nm).1 := by
  unfold findOrCreateConcept
  cases hl : lookupA st.registry nm with
  | some h => simpa using hl
  | none => exact lookupA_setA_self st.registry nm _

/-- `findOrCreateConcept` either leaves the registry alone (hit) or
appends exactly the new binding (miss). -/
theorem findOrCreateConcept_registry_cases (st : KIState) (nm : String) :
    (findOrCreateConcept st nm).2.registry = st.registry ∨
      (lookupA st.registry nm = none ∧
        (findOrCreateConcept st nm).2.registry
          = st.registry ++ [(nm, (findOrCreateConcept st nm).1)]) := by
  unfold findOrCreateConcept
  cases hl : lookupA st.registry nm with
  | some h => exact Or.inl rfl
  | none => exact Or.inr ⟨rfl, setA_eq_append _ hl⟩

/-- `registerConcept` has the registry and handle of its
`findOrCreateConcept` call (the optional fact does not touch either). -/
theorem registerConcept_registry_expr (st : KIState) (nm desc : String) :
    (registerConcept st nm desc).2.registry = (findOrCreateConcept st nm).2.registry ∧
    (registerConcept st nm desc).1 = (findOrCreateConcept st nm).1 := by
  unfold registerConcept
  by_cases hd : desc = ""
  · rw [if_pos hd]; exact ⟨rfl, rfl⟩
  · rw [if_neg hd]; exact ⟨addFact_registry _ _ _, rfl⟩

/-- After `registerConcept`, the registry maps the name to the returned
handle. -/
theorem registerConcept_key (st : KIState) (nm desc : String) :
    lookupA (registerConcept st nm desc).2.registry nm = some (registerConcept st nm desc).1 := by
  obtain ⟨h1, h2⟩ := registerConcept_registry_expr st nm desc
  rw [h1, h2]
  exact findOrCreateConcept_key st nm

/-- On a registry hit, `registerConcept` returns the registered handle and
leaves the registry unchanged. -/
theorem registerConcept_found (st : KIState) (nm desc : String) (h : Nat)
    (hl : lookupA st.registry nm = some h) :
    (registerConcept st nm desc).1 = h ∧
      (registerConcept st nm desc).2.registry = st.registry := by
  obtain ⟨h1, h2⟩ := registerConcept_registry_expr st nm desc
  constructor
  · rw [h2]
    unfold findOrCreateConcept
    rw [hl]
  · rw [h1]
    unfold findOrCreateConcept
    rw [hl]

/-- `registerConcept` either leaves the registry alone or appends exactly
the one new binding for a previously unregistered name. -/
theorem registerConcept_registry_cases (st : KIState) (nm desc : String) :
    (registerConcept st nm desc).2.registry = st.registry ∨
      (lookupA st.registry nm = none ∧
        (registerConcept st nm desc).2.registry
          = st.registry ++ [(nm, (registerConcept st nm desc).1)]) := by
  obtain ⟨h1, h2⟩ := registerConcept_registry_expr st nm desc
  rw [h1, h2]
  exact findOrCreateConcept_registry_cases st nm

/-- **C8.** Calling `registerConcept` twice with the same name returns the
same concept handle both times, and the registry keeps at most one binding
per name throughout. -/
theorem registerConcept_idempotent (st : KIState) (nm desc : String) :
    (registerConcept (registerConcept st nm desc).2 nm desc).1 = (registerConcept st nm desc).1 ∧
    ((regKeys st.registry).Nodup →
      (regKeys (registerConcept (registerConcept st nm desc).2 nm desc).2.registry).Nodup) := by
  have hkey := registerConcept_key st nm desc
  obtain ⟨hf1, hf2⟩ := registerConcept_found (registerConcept st nm desc).2 nm desc _ hkey
  refine ⟨hf1, fun hnd => ?_⟩
  rw [hf2]
  rcases registerConcept_registry_cases st nm desc with hsame | ⟨hnone, happ⟩
  · rw [hsame]; exact hnd
  · rw [happ]
    have hkeys : regKeys (st.registry ++ [(nm, (registerConcept st nm desc).1)])
        = regKeys st.registry ++ [nm] := by simp [regKeys]
    rw [hkeys]
    have hnotin : nm ∉ regKeys st.registry := by
      intro hmem
      obtain ⟨p, hp, hpe⟩ := List.mem_map.mp hmem
      exact (lookupA_none_forall hnone p hp) hpe
    rw [List.nodup_append]
    exact ⟨hnd, List.nodup_singleton nm, by simpa [List.disjoint_singleton] using hnotin⟩

/-- Witness for C8 at a concrete state and name. -/
theorem registerConcept_idempotent_witness :
    (regKeys kiInit.registry).Nodup ∧
    ((registerConcept (registerConcept kiInit ("Sun") ("")).2 ("Sun") ("")).1
        = (registerConcept kiInit ("Sun") ("")).1 ∧
      (regKeys (registerConcept (registerConcept kiInit ("Sun") ("")).2
          ("Sun") ("")).2.registry).Nodup) :=
  ⟨by decide,
   ⟨(registerConcept_idempotent kiInit ("Sun") ("")).1,
    (registerConcept_idempotent kiInit ("Sun") ("")).2 (by decide)⟩⟩

/-!
## Claim C4: the problem-solving decomposition scenario
-/

/-- The C4 scenario: `setGoal("solve the problem", autoDecompose = true)`
on a freshly constructed manager. -/
def solveScenario : Option Nat × TMState := setGoal initTM ("solve the problem") true

/-- **C4.** The scenario creates goal handle 4 with exactly the six
problem-solving subgoals in template order; one PENDING task per subgoal
with the first HIGH and the rest MEDIUM priority; a strictly sequential
dependency chain (each task after the first depends on the preceding
subgoal's task); and the goal's initial achievement strength is 0. -/
theorem setGoal_solve_scenario :
    solveScenario.1 = some 4 ∧
    (subgoalsOf solveScenario.2 4).map (fun sg => (atomAt solveScenario.2.atoms sg).name)
      = ["Goal_Define_Problem", "Goal_Analyze_Constraints", "Goal_Generate_Solutions",
         "Goal_Evaluate_Options", "Goal_Implement_Solution", "Goal_Test_Result"] ∧
    (subgoalsOf solveScenario.2 4).length = 6 ∧
    (subgoalsOf solveScenario.2 4).map (fun sg => findTaskForGoal solveScenario.2 (some sg))
      = [some 17, some 23, some 30, some 37, some 44, some 51] ∧
    solveScenario.2.task_status
      = [(17, TaskStatus.PENDING), (23, TaskStatus.PENDING), (30, TaskStatus.PENDING),
         (37, TaskStatus.PENDING), (44, TaskStatus.PENDING), (51, TaskStatus.PENDING)] ∧
    solveScenario.2.task_priorities
      = [(17, Priority.HIGH), (23, Priority.MEDIUM), (30, Priority.MEDIUM),
         (37, Priority.MEDIUM), (44, Priority.MEDIUM), (51, Priority.MEDIUM)] ∧
    solveScenario.2.task_dependencies
      = [(23, [17]), (30, [23]), (37, [30]), (44, [37]), (51, [44])] ∧
    (isGoalAchieved solveScenario.2 solveScenario.1).1 = 0 := by with_unfolding_all decide

/-!
## Claim C2: consistency validation
-/

/-- If a group contains `a` before `b` with `a` strong and `b` weak, the
pair scan flags both. -/
theorem flagPairs_mem {a b : StoreAtom} (g₁ g₂ g₃ : List StoreAtom)
    (ha : a.tv.1 > 1/2) (hb : b.tv.1 < 1/2) :
    a ∈ flagPairs (g₁ ++ a :: g₂ ++ b :: g₃) ∧ b ∈ flagPairs (g₁ ++ a :: g₂ ++ b :: g₃) := by
  induction g₁ with
  | nil =>
    simp only [List.nil_append, flagPairs]
    have hbmem : b ∈ g₂ ++ b :: g₃ := by simp
    have hpa : a ∈ (g₂ ++ b :: g₃).flatMap
        (fun x => if a.tv.1 > 1/2 ∧ x.tv.1 < 1/2 then [a, x] else []) := by
      apply List.mem_flatMap.mpr
      exact ⟨b, hbmem, by rw [if_pos ⟨ha, hb⟩]; simp⟩
    have hpb : b ∈ (g₂ ++ b :: g₃).flatMap
        (fun x => if a.tv.1 > 1/2 ∧ x.tv.1 < 1/2 then [a, x] else []) := by
      apply List.mem_flatMap.mpr
      exact ⟨b, hbmem, by rw [if_pos ⟨ha, hb⟩]; simp⟩
    exact ⟨List.mem_append_left _ hpa, List.mem_append_left _ hpb⟩
  | cons c g₁ ih =>
    simp only [List.cons_append, flagPairs]
    exact ⟨List.mem_append_right _ ih.1, List.mem_append_right _ ih.2⟩

/-- An enumeration-ordered inconsistent pair (strong before weak, same
subject) is flagged in full. -/
theorem validate_pair_flagged (l₁ l₂ l₃ : List StoreAtom) (a b : StoreAtom) (s : String)
    (hsa : subjectOf a.name = some s) (hsb : subjectOf b.name = some s)
    (ha : a.tv.1 > 1/2) (hb : b.tv.1 < 1/2) :
    a ∈ validateKnowledgeConsistency (l₁ ++ a :: l₂ ++ b :: l₃) ∧
      b ∈ validateKnowledgeConsistency (l₁ ++ a :: l₂ ++ b :: l₃) := by
  have hg : (l₁ ++ a :: l₂ ++ b :: l₃).filter (fun x => subjectOf x.name = some s)
      = (l₁.filter (fun x => subjectOf x.name = some s)) ++ a ::
        (l₂.filter (fun x => subjectOf x.name = some s)) ++ b ::
          (l₃.filter (fun x => subjectOf x.name = some s)) := by
    simp [List.filter_append, List.filter_cons, hsa, hsb]
  have hs : s ∈ ((l₁ ++ a :: l₂ ++ b :: l₃).filterMap (fun x => subjectOf x.name)).dedup := by
    rw [List.mem_dedup]
    exact List.mem_filterMap.mpr ⟨a, by simp, hsa⟩
  have hlen : ((l₁ ++ a :: l₂ ++ b :: l₃).filter
      (fun x => subjectOf x.name = some s)).length > 1 := by
    rw [hg]
    simp
    omega
  have hflag := flagPairs_mem (a := a) (b := b)
    (l₁.filter (fun x => subjectOf x.name = some s))
    (l₂.filter (fun x => subjectOf x.name = some s))
    (l₃.filter (fun x => subjectOf x.name = some s)) ha hb
  constructor
  · apply List.mem_flatMap.mpr
    refine ⟨s, hs, ?_⟩
    rw [if_pos hlen, hg]
    exact hflag.1
  · apply List.mem_flatMap.mpr
    refine ⟨s, hs, ?_⟩
    rw [if_pos hlen, hg]
    exact hflag.2

/-- A two-item store with a shared subject and strengths on the same side
of 0.5 yields no flagged items. -/
theorem validate_two_consistent (a b : StoreAtom) (s : String)
    (hsa : subjectOf a.name = some s) (hsb : subjectOf b.name = some s)
    (hcase : (a.tv.1 > 1/2 ∧ b.tv.1 > 1/2) ∨ (a.tv.1 < 1/2 ∧ b.tv.1 < 1/2)) :
    validateKnowledgeConsistency [a, b] = [] := by
  unfold validateKnowledgeConsistency
  have hfm : ([a, b].filterMap (fun x => subjectOf x.name)) = [s, s] := by
    simp [hsa, hsb]
  rw [hfm]
  have hd : ([s, s] : List String).dedup = [s] := by simp
  rw [hd]
  have hgf : ([a, b].filter (fun x => subjectOf x.name = some s)) = [a, b] := by
    simp [List.filter_cons, hsa, hsb]
  simp only [List.flatMap_cons, List.flatMap_nil, List.append_nil]
  rw [hgf, if_pos (by simp)]
  simp only [flagPairs, List.flatMap_cons, List.flatMap_nil]
  rcases hcase with ⟨h1, h2⟩ | ⟨h1, h2⟩
  · rw [if_neg (fun hc => absurd hc.2 (not_lt.mpr (le_of_lt h2)))]
    simp
  · rw [if_neg (fun hc => absurd hc.1 (lt_asymm h1))]
    simp

/-- **C2 amended.** Within a subject group, `validateKnowledgeConsistency`
flags a pair exactly in enumeration order: when the item enumerated
earlier has strength above 0.5 and the later one below 0.5, both items are
returned; a two-item group with both strengths above 0.5 (or both below)
is not flagged.  (The original claim's "regardless of which of the two the
store enumerates first" fails: see the counterexample.) -/
theorem validateKnowledgeConsistency_spec :
    (∀ (l₁ l₂ l₃ : List StoreAtom) (a b : StoreAtom) (s : String),
      subjectOf a.name = some s → subjectOf b.name = some s →
      a.tv.1 > 1/2 → b.tv.1 < 1/2 →
      a ∈ validateKnowledgeConsistency (l₁ ++ a :: l₂ ++ b :: l₃) ∧
        b ∈ validateKnowledgeConsistency (l₁ ++ a :: l₂ ++ b :: l₃)) ∧
    (∀ (a b : StoreAtom) (s : String),
      subjectOf a.name = some s → subjectOf b.name = some s →
      ((a.tv.1 > 1/2 ∧ b.tv.1 > 1/2) ∨ (a.tv.1 < 1/2 ∧ b.tv.1 < 1/2)) →
      validateKnowledgeConsistency [a, b] = []) :=
  ⟨fun l₁ l₂ l₃ a b s hsa hsb ha hb => validate_pair_flagged l₁ l₂ l₃ a b s hsa hsb ha hb,
   fun a b s hsa hsb hc => validate_two_consistent a b s hsa hsb hc⟩

/-- The "Sun" facts with the strong one enumerated first. -/
def sunHot : StoreAtom := ⟨1, "Sun is hot", (9/10, 9/10)⟩

/-- The weak "Sun" fact. -/
def sunCold : StoreAtom := ⟨0, "Sun is cold", (1/5, 9/10)⟩

/-- A second strong "Sun" fact. -/
def sunWarm : StoreAtom := ⟨2, "Sun is warm", (9/10, 9/10)⟩

/-- Witness for the amended C2 at concrete stores. -/
theorem validateKnowledgeConsistency_spec_witness :
    (subjectOf sunHot.name = some ("Sun") ∧ subjectOf sunCold.name = some ("Sun") ∧
      sunHot.tv.1 > 1/2 ∧ sunCold.tv.1 < 1/2) ∧
    (sunHot ∈ validateKnowledgeConsistency ([] ++ sunHot :: [] ++ sunCold :: []) ∧
      sunCold ∈ validateKnowledgeConsistency ([] ++ sunHot :: [] ++ sunCold :: [])) ∧
    validateKnowledgeConsistency [sunHot, sunWarm] = [] :=
  ⟨⟨by decide, by decide, by with_unfolding_all decide, by with_unfolding_all decide⟩,
   validateKnowledgeConsistency_spec.1 [] [] [] sunHot sunCold ("Sun")
     (by decide) (by decide) (by with_unfolding_all decide) (by with_unfolding_all decide),
   validateKnowledgeConsistency_spec.2 sunHot sunWarm ("Sun")
     (by decide) (by decide)
     (Or.inl ⟨by with_unfolding_all decide, by with_unfolding_all decide⟩)⟩

/-- The store of the C2 counterexample: the weak fact enumerated first. -/
def sunStoreLowFirst : List StoreAtom :=
  [⟨0, "Sun is cold", (1/5, 9/10)⟩, ⟨1, "Sun is hot", (9/10, 9/10)⟩]

/-- **C2 counterexample.** Two "Sun" facts with strengths 0.2 and 0.9,
the weak one enumerated first, are NOT flagged (the scan only tests the
earlier-strong/later-weak direction), contradicting the claim's
"regardless of which of the two the store enumerates first". -/
theorem validateKnowledgeConsistency_order_counterexample :
    validateKnowledgeConsistency sunStoreLowFirst = [] ∧
    subjectOf ("Sun is cold") = some ("Sun") ∧ subjectOf ("Sun is hot") = some ("Sun") ∧
    ((1 : Rat)/5 < 1/2) ∧ ((9 : Rat)/10 > 1/2) := by with_unfolding_all decide

/-!
## Claim C1: concept formation — infrastructure
-/

/-- `lookupA` is unchanged by appending a binding for a different key. -/
theorem lookupA_append_single_ne {κ α : Type} [DecidableEq κ]
    (l : List (κ × α)) {k1 k2 : κ} (v : α) (hne : k1 ≠ k2) :
    lookupA (l ++ [(k1, v)]) k2 = lookupA l k2 := by
  induction l with
  | nil => simp [lookupA, hne]
  | cons p rest ih =>
    rw [List.cons_append, lookupA_cons, lookupA_cons, ih]

/-- Appending to the common prefix is injective on strings. -/
theorem conceptName_inj {s a b : String} (h : s ++ a = s ++ b) : a = b := by
  have h2 : (s ++ a).data = (s ++ b).data := by rw [h]
  simp only [String.data_append] at h2
  have h3 : a.data = b.data := List.append_cancel_left h2
  cases a
  cases b
  exact congrArg String.mk h3

/-- A later atom space keeps every existing atom's name (atoms are only
appended or have their truth value modified). -/
def preservesNames (as as2 : List Atom) : Prop :=
  as.length ≤ as2.length ∧ ∀ i, i < as.length → (atomAt as2 i).name = (atomAt as i).name

theorem preservesNames_refl (as : List Atom) : preservesNames as as :=
  ⟨le_refl _, fun _ _ => rfl⟩

theorem preservesNames_trans {a b c : List Atom}
    (h1 : preservesNames a b) (h2 : preservesNames b c) : preservesNames a c :=
  ⟨le_trans h1.1 h2.1, fun i hi => by rw [h2.2 i (lt_of_lt_of_le hi h1.1), h1.2 i hi]⟩

theorem preservesNames_append (as l : List Atom) : preservesNames as (as ++ l) := by
  refine ⟨by simp, fun i hi => ?_⟩
  unfold atomAt
  rw [List.getD_append _ _ _ _ hi]

theorem preservesNames_addNode (as : List Atom) (t : AType) (nm : String) :
    preservesNames as (addNode as t nm).2 := by
  unfold addNode
  cases List.findIdx? (fun a => a.atype = t ∧ a.name = nm ∧ a.out = []) as with
  | some i => exact preservesNames_refl as
  | none => exact preservesNames_append as _

theorem preservesNames_addLink (as : List Atom) (t : AType) (og : List Nat) :
    preservesNames as (addLink as t og).2 := by
  unfold addLink
  cases List.findIdx? (fun a => a.atype = t ∧ a.out = og ∧ a.name = "") as with
  | some i => exact preservesNames_refl as
  | none => exact preservesNames_append as _

theorem preservesNames_setTV (as : List Atom) (h : Nat) (tv : TV) :
    preservesNames as (setTV as h tv) := by
  refine ⟨by simp [setTV, List.length_modify], fun i hi => ?_⟩
  unfold setTV atomAt
  rw [List.getD_eq_getElem?_getD, List.getD_eq_getElem?_getD, List.getElem?_modify]
  cases hx : as[i]? with
  | none => rfl
  | some a =>
    by_cases hih : h = i <;> simp [hih]

theorem preservesNames_findOrCreateConcept (st : KIState) (nm : String) :
    preservesNames st.atoms (findOrCreateConcept st nm).2.atoms := by
  unfold findOrCreateConcept
  cases lookupA st.registry nm with
  | some h => exact preservesNames_refl _
  | none => exact preservesNames_addNode st.atoms AType.CONCEPT_NODE nm

theorem preservesNames_createKnowledgeAtom (st : KIState) (c : String) (kt : KnowledgeType) :
    preservesNames st.atoms (createKnowledgeAtom st c kt).2.atoms := by
  unfold createKnowledgeAtom
  cases lookupA st.categories kt with
  | some cat =>
    exact preservesNames_trans (preservesNames_addNode _ _ _) (preservesNames_addLink _ _ _)
  | none => exact preservesNames_addNode _ _ _

theorem preservesNames_addFact (st : KIState) (d : String) (conf : ConfidenceLevel) :
    preservesNames st.atoms (addFact st d conf).2.atoms :=
  preservesNames_trans (preservesNames_createKnowledgeAtom st d KnowledgeType.FACTUAL)
    (preservesNames_trans (preservesNames_setTV _ _ _) (preservesNames_addLink _ _ _))

theorem preservesNames_registerConcept (st : KIState) (nm desc : String) :
    preservesNames st.atoms (registerConcept st nm desc).2.atoms := by
  unfold registerConcept
  by_cases hd : desc = ""
  · rw [if_pos hd]; exact preservesNames_findOrCreateConcept st nm
  · rw [if_neg hd]
    exact preservesNames_trans (preservesNames_findOrCreateConcept st nm)
      (preservesNames_addFact _ _ _)

/-- `findIdx?` returns an in-range index whose element satisfies the
predicate (stated through `getD`). -/
theorem findIdx?_prop {α : Type} (p : α → Bool) (d : α) :
    ∀ (l : List α) (s i : Nat), List.findIdx? p l s = some i →
      s ≤ i ∧ i - s < l.length ∧ p (l.getD (i - s) d) = true := by
  intro l
  induction l with
  | nil => intro s i h; simp [List.findIdx?] at h
  | cons x xs ih =>
    intro s i h
    rw [List.findIdx?_cons] at h
    by_cases hx : p x = true
    · rw [if_pos hx] at h
      have hsi : s = i := Option.some.inj h
      subst hsi
      exact ⟨le_refl s, by simp, by simpa using hx⟩
    · rw [if_neg hx] at h
      obtain ⟨hs, hlt, hp⟩ := ih (s + 1) i h
      refine ⟨by omega, by simp only [List.length_cons]; omega, ?_⟩
      have hd1 : i - s = (i - (s + 1)) + 1 := by omega
      rw [hd1]
      simpa using hp

/-- The handle `addNode` returns points at an atom bearing the requested
name, inside the resulting space. -/
theorem addNode_name (as : List Atom) (t : AType) (nm : String) :
    (atomAt (addNode as t nm).2 (addNode as t nm).1).name = nm ∧
      (addNode as t nm).1 < (addNode as t nm).2.length := by
  unfold addNode
  cases hf : List.findIdx? (fun a => a.atype = t ∧ a.name = nm ∧ a.out = []) as with
  | some i =>
    obtain ⟨_, hlt, hp⟩ := findIdx?_prop _ defaultAtom as 0 i hf
    simp only [Nat.sub_zero] at hlt hp
    have hprop := of_decide_eq_true hp
    exact ⟨hprop.2.1, hlt⟩
  | none =>
    constructor
    · unfold atomAt
      rw [List.getD_eq_getElem?_getD, List.getElem?_concat_length]
      rfl
    · simp

/-- On a registry miss, `findOrCreateConcept` returns a handle naming the
requested concept and appends exactly one registry binding. -/
theorem findOrCreateConcept_new (st : KIState) (nm : String)
    (hl : lookupA st.registry nm = none) :
    (atomAt (findOrCreateConcept st nm).2.atoms (findOrCreateConcept st nm).1).name = nm ∧
    (findOrCreateConcept st nm).1 < (findOrCreateConcept st nm).2.atoms.length ∧
    (findOrCreateConcept st nm).2.registry
      = st.registry ++ [(nm, (findOrCreateConcept st nm).1)] := by
  unfold findOrCreateConcept
  rw [hl]
  exact ⟨(addNode_name st.atoms AType.CONCEPT_NODE nm).1,
         (addNode_name st.atoms AType.CONCEPT_NODE nm).2,
         setA_eq_append _ hl⟩

/-- `registerConcept` keeps the atoms of its `findOrCreateConcept` call
name-stable and returns that call's handle. -/
theorem registerConcept_atoms_preserves (st : KIState) (nm desc : String) :
    preservesNames (findOrCreateConcept st nm).2.atoms (registerConcept st nm desc).2.atoms ∧
    (registerConcept st nm desc).1 = (findOrCreateConcept st nm).1 := by
  unfold registerConcept
  by_cases hd : desc = ""
  · rw [if_pos hd]; exact ⟨preservesNames_refl _, rfl⟩
  · rw [if_neg hd]; exact ⟨preservesNames_addFact _ _ _, rfl⟩

/-- On a registry miss, `registerConcept` creates an atom named after the
concept and appends exactly one registry binding for it. -/
theorem registerConcept_new (st : KIState) (nm desc : String)
    (hl : lookupA st.registry nm = none) :
    (atomAt (registerConcept st nm desc).2.atoms (registerConcept st nm desc).1).name = nm ∧
    (registerConcept st nm desc).1 < (registerConcept st nm desc).2.atoms.length ∧
    (registerConcept st nm desc).2.registry
      = st.registry ++ [(nm, (registerConcept st nm desc).1)] := by
  obtain ⟨hn, hb, hr⟩ := findOrCreateConcept_new st nm hl
  obtain ⟨hpres, hfst⟩ := registerConcept_atoms_preserves st nm desc
  have hexpr := registerConcept_registry_expr st nm desc
  refine ⟨?_, ?_, ?_⟩
  · rw [hfst, hpres.2 _ hb, hn]
  · rw [hfst]; exact lt_of_lt_of_le hb hpres.1
  · rw [hexpr.1, hfst]; exact hr

/-- The Boolean test deciding whether `formConceptsFrom` creates a concept
for a term: frequent enough, and its concept name unregistered. -/
def formCond (toks : List String) (n : Nat) (st : KIState) (k : String) : Bool :=
  decide (minFrequency n ≤ toks.count k) && !(hasKnowledgeAbout st ("Concept_" ++ k))

theorem formCond_true_iff (toks : List String) (n : Nat) (st : KIState) (k : String) :
    formCond toks n st k = true ↔
      (minFrequency n ≤ toks.count k ∧ hasKnowledgeAbout st ("Concept_" ++ k) = false) := by
  unfold formCond
  rw [Bool.and_eq_true]
  constructor
  · rintro ⟨h1, h2⟩
    refine ⟨of_decide_eq_true h1, ?_⟩
    cases hx : hasKnowledgeAbout st ("Concept_" ++ k)
    · rfl
    · rw [hx] at h2; simp at h2
  · rintro ⟨h1, h2⟩
    exact ⟨decide_eq_true h1, by rw [h2]; rfl⟩

theorem formCond_congr (toks : List String) (n : Nat) {st st2 : KIState} {k : String}
    (h : hasKnowledgeAbout st2 ("Concept_" ++ k) = hasKnowledgeAbout st ("Concept_" ++ k)) :
    formCond toks n st2 k = formCond toks n st k := by
  unfold formCond
  rw [h]

/-- The characterization of the concept-formation loop: over distinct term
keys, the created concepts are named `Concept_<k>` for exactly the keys
passing the frequency-and-unregistered test against the initial state, in
iteration order, and the registry gains exactly those names. -/
theorem formLoop_spec (toks : List String) (n : Nat) :
    ∀ (keys : List String) (st : KIState), keys.Nodup →
      ((formLoop toks n st keys).1.map
          (fun h => (atomAt (formLoop toks n st keys).2.atoms h).name)
        = (keys.filter (formCond toks n st)).map (fun k => "Concept_" ++ k)) ∧
      regKeys (formLoop toks n st keys).2.registry
        = regKeys st.registry
          ++ (keys.filter (formCond toks n st)).map (fun k => "Concept_" ++ k) ∧
      preservesNames st.atoms (formLoop toks n st keys).2.atoms := by
  intro keys
  induction keys with
  | nil =>
    intro st _
    exact ⟨rfl, by simp [formLoop], preservesNames_refl _⟩
  | cons k ks ih =>
    intro st hnd
    obtain ⟨hknotin, hnd'⟩ := List.nodup_cons.mp hnd
    by_cases hcond : minFrequency n ≤ toks.count k ∧
        hasKnowledgeAbout st ("Concept_" ++ k) = false
    · have hcb : formCond toks n st k = true := (formCond_true_iff toks n st k).mpr hcond
      have hlnone : lookupA st.registry ("Concept_" ++ k) = none := by
        have h2 := hcond.2
        unfold hasKnowledgeAbout at h2
        cases hx : lookupA st.registry ("Concept_" ++ k) with
        | none => rfl
        | some v => rw [hx] at h2; simp at h2
      obtain ⟨hname, hbound, hreg⟩ :=
        registerConcept_new st ("Concept_" ++ k) autoFormedDesc hlnone
      have hstep : formLoop toks n st (k :: ks)
          = ((registerConcept st ("Concept_" ++ k) autoFormedDesc).1
              :: (formLoop toks n (registerConcept st ("Concept_" ++ k) autoFormedDesc).2 ks).1,
             (formLoop toks n (registerConcept st ("Concept_" ++ k) autoFormedDesc).2 ks).2) := by
        simp only [formLoop, if_pos hcond]
      obtain ⟨ih1, ih2, ih3⟩ := ih (registerConcept st ("Concept_" ++ k) autoFormedDesc).2 hnd'
      have hfilter :
          ks.filter (formCond toks n (registerConcept st ("Concept_" ++ k) autoFormedDesc).2)
            = ks.filter (formCond toks n st) := by
        apply List.filter_congr
        intro x hx
        apply formCond_congr
        unfold hasKnowledgeAbout
        rw [hreg, lookupA_append_single_ne _ _
          (fun he => hknotin (by rw [conceptName_inj he]; exact hx))]
      have hkeys : regKeys (registerConcept st ("Concept_" ++ k) autoFormedDesc).2.registry
          = regKeys st.registry ++ ["Concept_" ++ k] := by
        rw [hreg]; simp [regKeys]
      refine ⟨?_, ?_, ?_⟩
      · rw [hstep]
        simp only [List.map_cons]
        have hhead : (atomAt (formLoop toks n
              (registerConcept st ("Concept_" ++ k) autoFormedDesc).2 ks).2.atoms
            (registerConcept st ("Concept_" ++ k) autoFormedDesc).1).name
              = "Concept_" ++ k := by
          rw [ih3.2 _ hbound, hname]
        rw [hhead, ih1, hfilter]
        simp [List.filter_cons, hcb]
      · rw [hstep]
        simp only []
        rw [ih2, hkeys, hfilter]
        simp [List.filter_cons, hcb, List.append_assoc]
      · rw [hstep]
        exact preservesNames_trans (preservesNames_registerConcept st _ _) ih3
    · have hcb : formCond toks n st k = false := by
        cases hx : formCond toks n st k
        · rfl
        · exact absurd ((formCond_true_iff toks n st k).mp hx) hcond
      have hstep : formLoop toks n st (k :: ks) = formLoop toks n st ks := by
        simp only [formLoop, if_neg hcond]
      obtain ⟨ih1, ih2, ih3⟩ := ih st hnd'
      refine ⟨?_, ?_, ?_⟩
      · rw [hstep, ih1]
        simp [List.filter_cons, hcb]
      · rw [hstep, ih2]
        simp [List.filter_cons, hcb]
      · rw [hstep]
        exact ih3

/-- **C1 amended/corrected.** With concept formation enabled, the concepts
`formConceptsFrom` returns are named `Concept_<term>` for exactly the
cleaned terms (length > 2) whose total frequency reaches
`max(2, ⌊0.3·itemCount⌋)` — the truncation the code computes, not the
ceiling the original claim states — and whose concept name is not already
registered. -/
theorem formConceptsFrom_spec (st : KIState) (names : List String)
    (hen : st.enable_concept_formation = true) :
    formConceptNames st names
      = ((termKeys names).filter
          (formCond (cleanedLongTerms names) names.length st)).map (fun k => "Concept_" ++ k) ∧
    (∀ t, ("Concept_" ++ t) ∈ formConceptNames st names ↔
        t ∈ cleanedLongTerms names ∧
        minFrequency names.length ≤ (cleanedLongTerms names).count t ∧
        hasKnowledgeAbout st ("Concept_" ++ t) = false) := by
  have hnd : (termKeys names).Nodup := List.nodup_dedup _
  obtain ⟨h1, _, _⟩ :=
    formLoop_spec (cleanedLongTerms names) names.length (termKeys names) st hnd
  have hrun : formConceptsFrom st names
      = formLoop (cleanedLongTerms names) names.length st (termKeys names) := by
    unfold formConceptsFrom
    rw [hen]
    simp
  have heq : formConceptNames st names
      = ((termKeys names).filter
          (formCond (cleanedLongTerms names) names.length st)).map (fun k => "Concept_" ++ k) := by
    unfold formConceptNames
    rw [hrun]
    exact h1
  refine ⟨heq, fun t => ?_⟩
  rw [heq]
  constructor
  · intro hmem
    obtain ⟨k, hk, hke⟩ := List.mem_map.mp hmem
    have hkt : k = t := conceptName_inj hke
    subst hkt
    obtain ⟨hkmem, hkcond⟩ := List.mem_filter.mp hk
    obtain ⟨hfreq, hreg⟩ := (formCond_true_iff _ _ _ _).mp hkcond
    exact ⟨List.mem_dedup.mp hkmem, hfreq, hreg⟩
  · rintro ⟨hmem, hfreq, hreg⟩
    apply List.mem_map.mpr
    refine ⟨t, ?_, rfl⟩
    apply List.mem_filter.mpr
    exact ⟨List.mem_dedup.mpr hmem, (formCond_true_iff _ _ _ _).mpr ⟨hfreq, hreg⟩⟩

/-- The experience-item names of the C1 witness and counterexample: seven
items, the term "widget" occurring twice, all other tokens too short. -/
def widgetNames : List String := ["widget", "widget", "aa", "bb", "cc", "dd", "ee"]

/-- Witness for the amended C1 at a concrete state and item list. -/
theorem formConceptsFrom_spec_witness :
    kiInit.enable_concept_formation = true ∧
    formConceptNames kiInit widgetNames
      = ((termKeys widgetNames).filter
          (formCond (cleanedLongTerms widgetNames) widgetNames.length kiInit)).map
            (fun k => "Concept_" ++ k) :=
  ⟨rfl, (formConceptsFrom_spec kiInit widgetNames rfl).1⟩

/-- **C1 counterexample.** Over seven items in which "widget" occurs
twice, the code's threshold is `max(2, ⌊2.1⌋) = 2`, so `Concept_widget`
IS formed — yet the claim's ceiling threshold is `max(2, ⌈2.1⌉) = 3 > 2`,
under which the claim asserts it would not be.  The claim's
iff is therefore false at this input. -/
theorem formConceptsFrom_ceil_counterexample :
    formConceptNames kiInit widgetNames = ["Concept_widget"] ∧
    (cleanedLongTerms widgetNames).count ("widget") = 2 ∧
    widgetNames.length = 7 ∧
    (((3 : Rat) / 10) * 7).ceil = 3 ∧
    ¬ ((2 : Int) ≥ max 2 ((((3 : Rat) / 10) * 7).ceil)) := by
  with_unfolding_all decide

end AgentZero
